import Mathlib

/-!
Verification of the Idea Index outline-ranking engine
(frontend/src/pages/Home.js: `fetchIdea`, `flattenComments`,
`getIndentLevel`, `handleVote`).

The post/comment records are embedded as a nested inductive type; the
recursive `flattenComments` and the stable `Array.prototype.sort`
(stability guaranteed by ES2019, embedded as a stable insertion sort)
are translated directly from the source.
-/

namespace IdeaIndex

/-- A post/comment record as consumed by the ranking pipeline: the fields
the pipeline reads (`id`, `upvotes`, `downvotes`, and the nested
`comments` array, which may be null/absent — modelled by `Option`). -/
inductive Comment : Type where
  | mk (id upvotes downvotes : Nat) (comments : Option (List Comment)) : Comment

/-- `id` field of a comment record. -/
def Comment.id : Comment → Nat
  | .mk i _ _ _ => i

/-- `upvotes` field of a comment record. -/
def Comment.upvotes : Comment → Nat
  | .mk _ u _ _ => u

/-- `downvotes` field of a comment record. -/
def Comment.downvotes : Comment → Nat
  | .mk _ _ d _ => d

/-- `comments` (children) field of a comment record. -/
def Comment.comments : Comment → Option (List Comment)
  | .mk _ _ _ cs => cs

instance : Inhabited Comment := ⟨.mk 0 0 0 none⟩

mutual

/-- Embedding of `flattenComments` from Home.js:
for each comment, push it, then (when `comment.comments` is non-null and
non-empty) concatenate the recursive flattening of its children. -/
def flattenComments : List Comment → List Comment
  | [] => []
  | Comment.mk i u d cc :: cs =>
      (Comment.mk i u d cc :: flattenChildren cc) ++ flattenComments cs

/-- The guarded recursive call
`comment.comments && comment.comments.length > 0 ? flattenComments(comment.comments) : []`. -/
def flattenChildren : Option (List Comment) → List Comment
  | none => []
  | some l => if 0 < l.length then flattenComments l else []

end

/-- Stable insertion of `x` into a key-descending list: `x` is placed
before the first element whose key is `≤ key x`, so among equal keys the
inserted (earlier-input) element comes first. -/
def insertDesc (key : α → Nat) (x : α) : List α → List α
  | [] => [x]
  | y :: ys => if key y ≤ key x then x :: y :: ys else y :: insertDesc key x ys

/-- Stable sort, descending by `key`.  Embeds
`allIdeasList.sort((a, b) => b.upvotes - a.upvotes)`: ES2019 requires
`Array.prototype.sort` to be stable, and the comparator orders by
`upvotes` descending. -/
def sortDesc (key : α → Nat) : List α → List α
  | [] => []
  | x :: xs => insertDesc key x (sortDesc key xs)

/-- The sort applied by `fetchIdea` to the flat list. -/
def sortIdeas : List Comment → List Comment :=
  sortDesc Comment.upvotes

/-- The pure part of `fetchIdea`: flatten the root's comments
(`data.comments || []`), prepend the root, and sort by upvotes
descending.  Returns the `allIdeasList` that the component renders. -/
def fetchIdeaList (data : Comment) : List Comment :=
  let allComments := flattenComments (data.comments.getD [])
  let allIdeasList := data :: allComments
  sortIdeas allIdeasList

/-- Embedding of `getIndentLevel` from Home.js: index 0 has indent 0;
otherwise compare `allIdeas[index].upvotes` with
`allIdeas[index-1].upvotes` — equal upvotes keep the previous level,
different upvotes add one. -/
def getIndentLevel (allIdeas : List Comment) : Nat → Nat
  | 0 => 0
  | i + 1 =>
      if (allIdeas.getD (i + 1) default).upvotes = (allIdeas.getD i default).upvotes
      then getIndentLevel allIdeas i
      else getIndentLevel allIdeas i + 1

/-- Embedding of the optimistic-update toggle in `handleVote`:
`const newVote = currentVote === voteValue ? 0 : voteValue`, where a
resulting 0 deletes the entry from `userVotes` (state `none`, i.e.
NoVote) and a non-zero value stores it. -/
def handleVoteToggle (currentVote : Option Int) (voteValue : Int) : Option Int :=
  if currentVote = some voteValue then none else some voteValue

/-! ### Generic lemmas about the stable descending insertion sort -/

theorem insertDesc_perm (key : α → Nat) (x : α) (l : List α) :
    List.Perm (insertDesc key x l) (x :: l) := by
  induction l with
  | nil => simp [insertDesc]
  | cons y ys ih =>
    simp only [insertDesc]
    split
    · exact List.Perm.refl _
    · exact (ih.cons y).trans (List.Perm.swap x y ys)

theorem sortDesc_perm (key : α → Nat) (l : List α) : List.Perm (sortDesc key l) l := by
  induction l with
  | nil => exact List.Perm.refl _
  | cons x xs ih =>
    exact (insertDesc_perm key x (sortDesc key xs)).trans (ih.cons x)

theorem insertDesc_pairwise (key : α → Nat) (x : α) (l : List α)
    (h : l.Pairwise (fun a b => key b ≤ key a)) :
    (insertDesc key x l).Pairwise (fun a b => key b ≤ key a) := by
  induction l with
  | nil => simp [insertDesc]
  | cons y ys ih =>
    rw [List.pairwise_cons] at h
    obtain ⟨h1, h2⟩ := h
    simp only [insertDesc]
    split
    · rename_i hyx
      refine List.pairwise_cons.2 ⟨?_, List.pairwise_cons.2 ⟨h1, h2⟩⟩
      intro b hb
      rcases List.mem_cons.1 hb with hb | hb
      · exact hb ▸ hyx
      · exact le_trans (h1 b hb) hyx
    · rename_i hyx
      refine List.pairwise_cons.2 ⟨?_, ih h2⟩
      intro b hb
      have hb2 : b ∈ x :: ys := (insertDesc_perm key x ys).mem_iff.1 hb
      rcases List.mem_cons.1 hb2 with hb2 | hb2
      · exact hb2 ▸ le_of_lt (lt_of_not_le hyx)
      · exact h1 b hb2

theorem sortDesc_pairwise (key : α → Nat) (l : List α) :
    (sortDesc key l).Pairwise (fun a b => key b ≤ key a) := by
  induction l with
  | nil => simp [sortDesc]
  | cons x xs ih => exact insertDesc_pairwise key x _ ih

theorem insertDesc_filter_eq (key : α → Nat) (v : Nat) (x : α) (l : List α)
    (hx : key x = v) :
    (insertDesc key x l).filter (fun a => key a == v) =
      x :: l.filter (fun a => key a == v) := by
  induction l with
  | nil => simp [insertDesc, hx]
  | cons y ys ih =>
    simp only [insertDesc]
    split
    · simp [List.filter_cons, hx]
    · rename_i hyx
      have hyv : (key y == v) = false := by
        refine beq_eq_false_iff_ne.2 ?_
        intro hyv
        exact hyx (hyv ▸ hx ▸ le_refl v)
      simp [List.filter_cons, hyv, ih]

theorem insertDesc_filter_ne (key : α → Nat) (v : Nat) (x : α) (l : List α)
    (hx : key x ≠ v) :
    (insertDesc key x l).filter (fun a => key a == v) =
      l.filter (fun a => key a == v) := by
  induction l with
  | nil => simp [insertDesc, hx]
  | cons y ys ih =>
    simp only [insertDesc]
    split
    · simp [List.filter_cons, hx]
    · simp [List.filter_cons, ih]

theorem sortDesc_filter (key : α → Nat) (v : Nat) (l : List α) :
    (sortDesc key l).filter (fun a => key a == v) =
      l.filter (fun a => key a == v) := by
  induction l with
  | nil => rfl
  | cons x xs ih =>
    simp only [sortDesc]
    by_cases hx : key x = v
    · rw [insertDesc_filter_eq key v x _ hx, ih, List.filter_cons]
      simp [hx]
    · rw [insertDesc_filter_ne key v x _ hx, ih, List.filter_cons]
      simp [hx]

theorem insertDesc_map (f : α → β) (key : β → Nat) (x : α) (l : List α) :
    (insertDesc (fun a => key (f a)) x l).map f = insertDesc key (f x) (l.map f) := by
  induction l with
  | nil => simp [insertDesc]
  | cons y ys ih =>
    simp only [insertDesc, List.map_cons]
    split
    · simp
    · simp [ih]

theorem sortDesc_map (f : α → β) (key : β → Nat) (l : List α) :
    (sortDesc (fun a => key (f a)) l).map f = sortDesc key (l.map f) := by
  induction l with
  | nil => rfl
  | cons x xs ih =>
    simp only [sortDesc, List.map_cons]
    rw [insertDesc_map, ih]

theorem insertDesc_of_le (key : α → Nat) (x : α) (l : List α)
    (h : ∀ b ∈ l, key b ≤ key x) : insertDesc key x l = x :: l := by
  cases l with
  | nil => rfl
  | cons y ys =>
    simp only [insertDesc]
    rw [if_pos (h y (List.mem_cons_self y ys))]

theorem sortDesc_of_pairwise (key : α → Nat) (l : List α)
    (h : l.Pairwise (fun a b => key b ≤ key a)) : sortDesc key l = l := by
  induction l with
  | nil => rfl
  | cons x xs ih =>
    rw [List.pairwise_cons] at h
    simp only [sortDesc]
    rw [ih h.2, insertDesc_of_le key x xs h.1]

theorem sortDesc_idem (key : α → Nat) (l : List α) :
    sortDesc key (sortDesc key l) = sortDesc key l :=
  sortDesc_of_pairwise key _ (sortDesc_pairwise key l)

/-! ### Lemmas about the depth assignment `getIndentLevel` -/

/-- `getIndentLevel` computed on the bare upvote sequence. -/
def upLevels (uv : List Nat) : Nat → Nat
  | 0 => 0
  | i + 1 =>
      if uv.getD (i + 1) 0 = uv.getD i 0 then upLevels uv i else upLevels uv i + 1

theorem getD_map_upvotes (l : List Comment) (j : Nat) :
    (l.map Comment.upvotes).getD j 0 = (l.getD j default).upvotes := by
  induction l generalizing j with
  | nil => cases j <;> rfl
  | cons c cs ih =>
    cases j with
    | zero => rfl
    | succ j => simpa using ih j

theorem getIndentLevel_eq_upLevels (l : List Comment) (i : Nat) :
    getIndentLevel l i = upLevels (l.map Comment.upvotes) i := by
  induction i with
  | zero => rfl
  | succ i ih =>
    simp only [getIndentLevel, upLevels, getD_map_upvotes, ih]

theorem getIndentLevel_congr (l1 l2 : List Comment)
    (h : l1.map Comment.upvotes = l2.map Comment.upvotes) (i : Nat) :
    getIndentLevel l1 i = getIndentLevel l2 i := by
  rw [getIndentLevel_eq_upLevels, getIndentLevel_eq_upLevels, h]

theorem getIndentLevel_step (l : List Comment) (i : Nat) :
    getIndentLevel l (i + 1) = getIndentLevel l i ∨
      getIndentLevel l (i + 1) = getIndentLevel l i + 1 := by
  simp only [getIndentLevel]
  split
  · exact Or.inl rfl
  · exact Or.inr rfl

theorem getIndentLevel_mono (l : List Comment) {i j : Nat} (h : i ≤ j) :
    getIndentLevel l i ≤ getIndentLevel l j := by
  induction j with
  | zero =>
    have : i = 0 := Nat.le_zero.1 h
    simp [this]
  | succ j ih =>
    by_cases h' : i ≤ j
    · have h1 := ih h'
      rcases getIndentLevel_step l j with hs | hs <;> omega
    · have : i = j + 1 := by omega
      simp [this]

theorem getIndentLevel_iff_eq_upvotes (l : List Comment) (i : Nat) :
    getIndentLevel l (i + 1) = getIndentLevel l i ↔
      (l.getD (i + 1) default).upvotes = (l.getD i default).upvotes := by
  simp only [getIndentLevel]
  split
  · rename_i hc
    exact iff_of_true rfl hc
  · rename_i hc
    exact iff_of_false (by omega) hc

theorem pairwise_le_getD (l : List Comment)
    (hp : l.Pairwise (fun a b => b.upvotes ≤ a.upvotes)) :
    ∀ i, i + 1 < l.length →
      (l.getD (i + 1) default).upvotes ≤ (l.getD i default).upvotes := by
  intro i h
  rw [List.getD_eq_getElem l default h,
    List.getD_eq_getElem l default (by omega : i < l.length)]
  exact List.pairwise_iff_getElem.1 hp i (i + 1) (by omega) h (by omega)

theorem upLevels_toFinset (uv : List Nat)
    (h : uv.Pairwise (fun a b => b ≤ a)) :
    ∀ i, i < uv.length → upLevels uv i + 1 = ((uv.take (i + 1)).toFinset).card := by
  intro i
  induction i with
  | zero =>
    intro h0
    cases uv with
    | nil => simp at h0
    | cons x xs => simp [upLevels]
  | succ i ih =>
    intro hi1
    have hi : i < uv.length := by omega
    have hih := ih hi
    have hpwD : ∀ p q : Nat, p < q → q < uv.length → uv.getD q 0 ≤ uv.getD p 0 := by
      intro p q hpq hq
      rw [List.getD_eq_getElem uv 0 hq, List.getD_eq_getElem uv 0 (by omega)]
      exact List.pairwise_iff_getElem.1 h p q (by omega) hq hpq
    have htake : uv.take (i + 1 + 1) = uv.take (i + 1) ++ [uv.getD (i + 1) 0] := by
      rw [List.getD_eq_getElem uv 0 hi1]
      exact (List.take_concat_get' uv (i + 1) hi1).symm
    have hfin : (uv.take (i + 1 + 1)).toFinset =
        insert (uv.getD (i + 1) 0) ((uv.take (i + 1)).toFinset) := by
      rw [htake, List.toFinset_append]
      simp [Finset.insert_eq, Finset.union_comm]
    simp only [upLevels]
    split
    · rename_i hc
      have hmem : uv.getD (i + 1) 0 ∈ (uv.take (i + 1)).toFinset := by
        rw [List.mem_toFinset, hc]
        refine List.mem_take_iff_getElem.2 ⟨i, by omega, ?_⟩
        exact (List.getD_eq_getElem uv 0 hi).symm
      rw [hfin, Finset.insert_eq_self.2 hmem]
      exact hih
    · rename_i hc
      have hmem : uv.getD (i + 1) 0 ∉ (uv.take (i + 1)).toFinset := by
        rw [List.mem_toFinset]
        intro hmem
        obtain ⟨m, hm, hma⟩ := List.mem_take_iff_getElem.1 hmem
        have hmlt : m < uv.length := by omega
        have hma2 : uv.getD m 0 = uv.getD (i + 1) 0 := by
          rw [List.getD_eq_getElem uv 0 hmlt]
          exact hma
        have h1 : uv.getD (i + 1) 0 ≤ uv.getD i 0 := hpwD i (i + 1) (by omega) hi1
        rcases Nat.lt_or_ge m i with hmlt2 | hmge
        · have h2 : uv.getD i 0 ≤ uv.getD m 0 := hpwD m i hmlt2 hi
          omega
        · have hmi : m = i := by omega
          subst hmi
          exact hc hma2.symm
      rw [hfin, Finset.card_insert_of_not_mem hmem]
      omega

/-! ### Stability infrastructure -/

/-- Tagged variant of the rank sort, pairing each entry with its position
in the pre-order flattened input (same sort, key ignores the tag). -/
def sortTagged : List (Nat × Comment) → List (Nat × Comment) :=
  sortDesc (fun p => p.2.upvotes)

theorem enumFrom_pairwise_fst (l : List α) (n : Nat) :
    (l.enumFrom n).Pairwise (fun p q => p.1 < q.1) := by
  induction l generalizing n with
  | nil => simp
  | cons x xs ih =>
    simp only [List.enumFrom]
    refine List.pairwise_cons.2 ⟨?_, ih (n + 1)⟩
    intro q hq
    have := List.le_fst_of_mem_enumFrom hq
    omega

/-! ### Claim theorems: ranking and depth -/

/-- C1: the `rank` step of `fetchIdea` (the upvotes-descending sort)
produces a permutation of the flattened input sequence of exactly the
same length, and for all adjacent pairs `(i, i+1)` of the ranked
sequence the upvote counts are non-increasing. -/
theorem rank_is_sorted_permutation (data : Comment) :
    List.Perm (fetchIdeaList data)
      (data :: flattenComments (data.comments.getD [])) ∧
    (fetchIdeaList data).length =
      (data :: flattenComments (data.comments.getD [])).length ∧
    ∀ i : Nat, i + 1 < (fetchIdeaList data).length →
      ((fetchIdeaList data).getD (i + 1) default).upvotes ≤
        ((fetchIdeaList data).getD i default).upvotes := by
  have hperm : List.Perm (fetchIdeaList data)
      (data :: flattenComments (data.comments.getD [])) :=
    sortDesc_perm Comment.upvotes _
  refine ⟨hperm, hperm.length_eq, ?_⟩
  exact pairwise_le_getD _ (sortDesc_pairwise Comment.upvotes _)

theorem rank_is_sorted_permutation_witness :
    0 + 1 < (fetchIdeaList (Comment.mk 0 3 0 (some [Comment.mk 1 5 0 none]))).length ∧
    ((fetchIdeaList (Comment.mk 0 3 0 (some [Comment.mk 1 5 0 none]))).getD (0 + 1)
        default).upvotes ≤
      ((fetchIdeaList (Comment.mk 0 3 0 (some [Comment.mk 1 5 0 none]))).getD 0
        default).upvotes := by
  have hlen : fetchIdeaList (Comment.mk 0 3 0 (some [Comment.mk 1 5 0 none])) =
      [Comment.mk 1 5 0 none, Comment.mk 0 3 0 (some [Comment.mk 1 5 0 none])] := by
    simp [fetchIdeaList, flattenComments, flattenChildren, sortIdeas, sortDesc,
      insertDesc, Comment.comments, Comment.upvotes]
  have h1 : 0 + 1 <
      (fetchIdeaList (Comment.mk 0 3 0 (some [Comment.mk 1 5 0 none]))).length := by
    rw [hlen]
    simp
  exact ⟨h1, (rank_is_sorted_permutation (Comment.mk 0 3 0 (some [Comment.mk 1 5 0 none]))).2.2 0 h1⟩

/-- C2: the rank sort is stable.  In the tagged sequence (entries paired
with their pre-order position), any two entries with equal upvotes
appear in the ranked output with their original positions in increasing
order; dropping the tags recovers the code's sort; and for every upvote
value the subsequence of entries carrying it is exactly the same as in
the flattened input. -/
theorem rank_is_stable (l : List Comment) :
    (∀ (i j : Nat) (a b : Comment), a.upvotes = b.upvotes →
        List.Sublist [(i, a), (j, b)] (sortTagged l.enum) → i < j) ∧
    (sortTagged l.enum).map Prod.snd = sortIdeas l ∧
    (∀ v : Nat, (sortIdeas l).filter (fun c => c.upvotes == v) =
        l.filter (fun c => c.upvotes == v)) := by
  refine ⟨?_, ?_, ?_⟩
  · intro i j a b hup hsub
    have hfsub := hsub.filter (fun p : Nat × Comment => p.2.upvotes == a.upvotes)
    have hfl : [(i, a), (j, b)].filter
        (fun p : Nat × Comment => p.2.upvotes == a.upvotes) = [(i, a), (j, b)] := by
      simp [List.filter_cons, hup]
    rw [hfl] at hfsub
    have hfeq := sortDesc_filter (fun p : Nat × Comment => p.2.upvotes) a.upvotes l.enum
    rw [show sortTagged l.enum =
        sortDesc (fun p : Nat × Comment => p.2.upvotes) l.enum from rfl, hfeq] at hfsub
    have hsub2 : List.Sublist [(i, a), (j, b)] l.enum :=
      hfsub.trans (List.filter_sublist _)
    have hpw : (l.enum).Pairwise (fun p q : Nat × Comment => p.1 < q.1) :=
      enumFrom_pairwise_fst l 0
    have hps := hpw.sublist hsub2
    exact (List.pairwise_cons.1 hps).1 (j, b) (by simp)
  · have hm := sortDesc_map Prod.snd Comment.upvotes l.enum
    rw [List.enum_map_snd] at hm
    exact hm
  · intro v
    exact sortDesc_filter Comment.upvotes v l

theorem rank_is_stable_witness : (0 : Nat) < 1 := by
  refine (rank_is_stable [Comment.mk 10 5 0 none, Comment.mk 11 5 2 none]).1
    0 1 (Comment.mk 10 5 0 none) (Comment.mk 11 5 2 none) rfl ?_
  have hs : sortTagged ([Comment.mk 10 5 0 none, Comment.mk 11 5 2 none].enum) =
      [(0, Comment.mk 10 5 0 none), (1, Comment.mk 11 5 2 none)] := rfl
  rw [hs]

/-- C3: on the ranked sequence, the depth starts at 0, changes by 0 or 1
at each step, never decreases, and the depth of the last entry (which is
maximal, by monotonicity) is the number of distinct upvote values minus
one (stated additively: last depth + 1 = number of distinct values). -/
theorem depth_monotone_distinct (l : List Comment) (hne : l ≠ []) :
    getIndentLevel (sortIdeas l) 0 = 0 ∧
    (∀ i : Nat, 0 < i → i < (sortIdeas l).length →
      getIndentLevel (sortIdeas l) i = getIndentLevel (sortIdeas l) (i - 1) ∨
      getIndentLevel (sortIdeas l) i = getIndentLevel (sortIdeas l) (i - 1) + 1) ∧
    getIndentLevel (sortIdeas l) ((sortIdeas l).length - 1) + 1 =
      ((sortIdeas l).map Comment.upvotes).toFinset.card ∧
    (∀ i : Nat, i < (sortIdeas l).length →
      getIndentLevel (sortIdeas l) i ≤
        getIndentLevel (sortIdeas l) ((sortIdeas l).length - 1)) := by
  have hlen : (sortIdeas l).length = l.length :=
    (sortDesc_perm Comment.upvotes l).length_eq
  have hlpos : 0 < l.length := List.length_pos.2 hne
  refine ⟨rfl, ?_, ?_, ?_⟩
  · intro i hi0 hilen
    obtain ⟨k, rfl⟩ : ∃ k, i = k + 1 := ⟨i - 1, by omega⟩
    simpa using getIndentLevel_step (sortIdeas l) k
  · have hpw : ((sortIdeas l).map Comment.upvotes).Pairwise (fun a b => b ≤ a) := by
      rw [List.pairwise_map]
      exact sortDesc_pairwise Comment.upvotes l
    have hposs : (sortIdeas l).length - 1 <
        ((sortIdeas l).map Comment.upvotes).length := by
      rw [List.length_map]
      omega
    have hform := upLevels_toFinset _ hpw ((sortIdeas l).length - 1) hposs
    rw [getIndentLevel_eq_upLevels, hform]
    congr 1
    rw [show (sortIdeas l).length - 1 + 1 =
        ((sortIdeas l).map Comment.upvotes).length by rw [List.length_map]; omega,
      List.take_length]
  · intro i hi
    exact getIndentLevel_mono _ (by omega)

theorem depth_monotone_distinct_witness :
    ([Comment.mk 0 7 0 none, Comment.mk 2 3 0 none] : List Comment) ≠ [] ∧
    getIndentLevel (sortIdeas [Comment.mk 0 7 0 none, Comment.mk 2 3 0 none])
        ((sortIdeas [Comment.mk 0 7 0 none, Comment.mk 2 3 0 none]).length - 1) + 1 =
      ((sortIdeas [Comment.mk 0 7 0 none, Comment.mk 2 3 0 none]).map
          Comment.upvotes).toFinset.card :=
  ⟨by simp, (depth_monotone_distinct _ (by simp)).2.2.1⟩

/-- C4: for every position `i > 0`, the depth equals the previous depth
iff the upvote counts at `i` and `i-1` are equal; moreover the depth at
any position is a function of the upvote sequence alone (two lists with
the same upvote sequence get identical depths, independent of ids,
downvotes, or the reply-parent structure recorded in `comments`). -/
theorem depth_iff_equal_upvotes (l : List Comment) :
    (∀ i : Nat, 0 < i →
      (getIndentLevel l i = getIndentLevel l (i - 1) ↔
        (l.getD i default).upvotes = (l.getD (i - 1) default).upvotes)) ∧
    (∀ l2 : List Comment, l.map Comment.upvotes = l2.map Comment.upvotes →
      ∀ i : Nat, getIndentLevel l i = getIndentLevel l2 i) := by
  refine ⟨?_, fun l2 h i => getIndentLevel_congr l l2 h i⟩
  intro i hi0
  obtain ⟨k, rfl⟩ : ∃ k, i = k + 1 := ⟨i - 1, by omega⟩
  simpa using getIndentLevel_iff_eq_upvotes l k

theorem depth_iff_equal_upvotes_witness :
    0 < 1 ∧
    (getIndentLevel [Comment.mk 0 4 0 none, Comment.mk 1 4 9 (some [])] 1 =
        getIndentLevel [Comment.mk 0 4 0 none, Comment.mk 1 4 9 (some [])] (1 - 1) ↔
      (([Comment.mk 0 4 0 none, Comment.mk 1 4 9 (some [])] : List Comment).getD 1
          default).upvotes =
        (([Comment.mk 0 4 0 none, Comment.mk 1 4 9 (some [])] : List Comment).getD (1 - 1)
          default).upvotes) :=
  ⟨by norm_num,
    (depth_iff_equal_upvotes [Comment.mk 0 4 0 none, Comment.mk 1 4 9 (some [])]).1 1
      (by norm_num)⟩

/-! ### Tree size and id-occurrence counting (completeness of flatten) -/

mutual

/-- Total number of posts in a tree: the root plus all descendants. -/
def sizeC : Comment → Nat
  | .mk _ _ _ cc => 1 + sizeChildren cc

/-- Node count of an optional (possibly null) child list. -/
def sizeChildren : Option (List Comment) → Nat
  | none => 0
  | some l => sizeList l

/-- Node count of a forest. -/
def sizeList : List Comment → Nat
  | [] => 0
  | c :: cs => sizeC c + sizeList cs

end

mutual

/-- Number of posts carrying id `n` in a tree. -/
def occC (n : Nat) : Comment → Nat
  | .mk i _ _ cc => (if i = n then 1 else 0) + occChildren n cc

/-- Number of posts carrying id `n` below an optional child list. -/
def occChildren (n : Nat) : Option (List Comment) → Nat
  | none => 0
  | some l => occList n l

/-- Number of posts carrying id `n` in a forest. -/
def occList (n : Nat) : List Comment → Nat
  | [] => 0
  | c :: cs => occC n c + occList n cs

end

mutual

theorem flattenComments_length : (l : List Comment) →
    (flattenComments l).length = sizeList l
  | [] => by simp [flattenComments, sizeList]
  | Comment.mk i u d cc :: cs => by
    simp only [flattenComments, List.length_append, List.length_cons]
    rw [flattenChildren_length cc, flattenComments_length cs]
    simp only [sizeList, sizeC]
    omega

theorem flattenChildren_length : (cc : Option (List Comment)) →
    (flattenChildren cc).length = sizeChildren cc
  | none => by simp [flattenChildren, sizeChildren]
  | some [] => by simp [flattenChildren, sizeChildren, sizeList]
  | some (c :: cs) => by
    simp only [flattenChildren]
    rw [if_pos (by simp), flattenComments_length (c :: cs)]
    rfl

end

mutual

theorem flattenComments_countP (n : Nat) : (l : List Comment) →
    (flattenComments l).countP (fun c => c.id == n) = occList n l
  | [] => by simp [flattenComments, occList]
  | Comment.mk i u d cc :: cs => by
    simp only [flattenComments, List.countP_append, List.countP_cons]
    rw [flattenChildren_countP n cc, flattenComments_countP n cs]
    simp only [occList, occC, Comment.id, beq_iff_eq]
    omega

theorem flattenChildren_countP (n : Nat) : (cc : Option (List Comment)) →
    (flattenChildren cc).countP (fun c => c.id == n) = occChildren n cc
  | none => by simp [flattenChildren, occChildren]
  | some [] => by simp [flattenChildren, occChildren, occList]
  | some (c :: cs) => by
    simp only [flattenChildren]
    rw [if_pos (by simp), flattenComments_countP n (c :: cs)]
    rfl

end

/-- C5: completeness of `flatten`.  The flat list built by `fetchIdea`
(the root followed by the pre-order flattening of its descendants) has
exactly `sizeC data` elements — one per post of the tree — starts with
the root, and contains, for every id `n`, exactly as many entries with
id `n` as the tree does: nothing is duplicated and nothing is omitted. -/
theorem flatten_complete (data : Comment) :
    (data :: flattenComments (data.comments.getD [])).length = sizeC data ∧
    (data :: flattenComments (data.comments.getD [])).head? = some data ∧
    ∀ n : Nat, (data :: flattenComments (data.comments.getD [])).countP
        (fun c => c.id == n) = occC n data := by
  obtain ⟨i, u, d, cc⟩ := data
  refine ⟨?_, rfl, ?_⟩
  · simp only [List.length_cons, Comment.comments]
    cases cc with
    | none =>
      simp only [Option.getD_none]
      rw [show (flattenComments []).length = sizeList [] from flattenComments_length []]
      simp [sizeList, sizeC, sizeChildren]
    | some l =>
      simp only [Option.getD_some]
      rw [flattenComments_length l]
      simp only [sizeC, sizeChildren]
      omega
  · intro n
    simp only [List.countP_cons, Comment.comments]
    cases cc with
    | none =>
      simp only [Option.getD_none]
      rw [flattenComments_countP n []]
      simp only [occList, occC, occChildren, Comment.id, beq_iff_eq]
      omega
    | some l =>
      simp only [Option.getD_some]
      rw [flattenComments_countP n l]
      simp only [occC, occChildren, Comment.id, beq_iff_eq]
      omega

/-! ### Downvote noninterference -/

mutual

/-- Erase the `downvotes` counter of every post in a tree (all other
fields kept).  Two snapshots are "identical except for downvotes"
exactly when their erasures coincide. -/
def eraseDown : Comment → Comment
  | .mk i u _ cc => .mk i u 0 (eraseDownChildren cc)

/-- Erase downvotes below an optional child list. -/
def eraseDownChildren : Option (List Comment) → Option (List Comment)
  | none => none
  | some l => some (eraseDownList l)

/-- Erase downvotes in a forest. -/
def eraseDownList : List Comment → List Comment
  | [] => []
  | c :: cs => eraseDown c :: eraseDownList cs

end

theorem eraseDown_upvotes (c : Comment) : (eraseDown c).upvotes = c.upvotes := by
  obtain ⟨i, u, d, cc⟩ := c
  simp [eraseDown, Comment.upvotes]

theorem eraseDownList_length (l : List Comment) :
    (eraseDownList l).length = l.length := by
  induction l with
  | nil => simp [eraseDownList]
  | cons c cs ih => simp [eraseDownList, ih]

mutual

theorem flattenComments_erase : (l : List Comment) →
    flattenComments (eraseDownList l) = (flattenComments l).map eraseDown
  | [] => by simp [flattenComments, eraseDownList]
  | Comment.mk i u d cc :: cs => by
    simp only [eraseDownList, eraseDown, flattenComments]
    rw [flattenChildren_erase cc, flattenComments_erase cs]
    simp [eraseDown]

theorem flattenChildren_erase : (cc : Option (List Comment)) →
    flattenChildren (eraseDownChildren cc) = (flattenChildren cc).map eraseDown
  | none => by simp [flattenChildren, eraseDownChildren]
  | some l => by
    simp only [eraseDownChildren, flattenChildren]
    rw [eraseDownList_length]
    split
    · exact flattenComments_erase l
    · simp

end

theorem eraseDown_upvotes_comp : Comment.upvotes ∘ eraseDown = Comment.upvotes :=
  funext eraseDown_upvotes

theorem sortIdeas_erase (l : List Comment) :
    sortIdeas (l.map eraseDown) = (sortIdeas l).map eraseDown := by
  have hkey : (fun a => Comment.upvotes (eraseDown a)) = Comment.upvotes := by
    funext a
    exact eraseDown_upvotes a
  have hmap := sortDesc_map eraseDown Comment.upvotes l
  rw [hkey] at hmap
  exact hmap.symm

theorem eraseDown_comments_getD (t : Comment) :
    (eraseDown t).comments.getD [] = eraseDownList (t.comments.getD []) := by
  obtain ⟨i, u, d, cc⟩ := t
  cases cc with
  | none => simp [eraseDown, eraseDownChildren, Comment.comments, eraseDownList]
  | some l => simp [eraseDown, eraseDownChildren, Comment.comments]

theorem fetchIdeaList_erase (t : Comment) :
    fetchIdeaList (eraseDown t) = (fetchIdeaList t).map eraseDown := by
  show sortIdeas (eraseDown t :: flattenComments ((eraseDown t).comments.getD [])) =
    (sortIdeas (t :: flattenComments (t.comments.getD []))).map eraseDown
  rw [eraseDown_comments_getD, flattenComments_erase, ← List.map_cons, sortIdeas_erase]

/-- C6: downvotes do not influence the output.  If two snapshots agree
after erasing every `downvotes` counter, then the ranked sequences also
agree up to downvote counters (same posts in the same order) and the
assigned depths are identical at every position: ranking reads raw
`upvotes` only and never `upvotes - downvotes`. -/
theorem downvotes_noninterference (t1 t2 : Comment)
    (h : eraseDown t1 = eraseDown t2) :
    (fetchIdeaList t1).map eraseDown = (fetchIdeaList t2).map eraseDown ∧
    ∀ i : Nat,
      getIndentLevel (fetchIdeaList t1) i = getIndentLevel (fetchIdeaList t2) i := by
  have h1 : (fetchIdeaList t1).map eraseDown = (fetchIdeaList t2).map eraseDown := by
    rw [← fetchIdeaList_erase, ← fetchIdeaList_erase, h]
  refine ⟨h1, ?_⟩
  intro i
  apply getIndentLevel_congr
  have hup : ∀ L : List Comment,
      L.map Comment.upvotes = (L.map eraseDown).map Comment.upvotes := by
    intro L
    rw [List.map_map, eraseDown_upvotes_comp]
  rw [hup (fetchIdeaList t1), hup (fetchIdeaList t2), h1]

theorem downvotes_noninterference_witness :
    eraseDown (Comment.mk 0 5 7 none) = eraseDown (Comment.mk 0 5 2 none) ∧
    getIndentLevel (fetchIdeaList (Comment.mk 0 5 7 none)) 0 =
      getIndentLevel (fetchIdeaList (Comment.mk 0 5 2 none)) 0 :=
  ⟨by simp [eraseDown, eraseDownChildren],
    (downvotes_noninterference (Comment.mk 0 5 7 none) (Comment.mk 0 5 2 none)
      (by simp [eraseDown, eraseDownChildren])).2 0⟩

/-! ### Termination of the flatten traversal

`flattenComments` in the source is plain unguarded recursion: it has no
depth cap and no revisited-node detection.  Cyclic `comments` references
cannot be expressed with the inductive `Comment` type, so the cyclic
case is modelled on an id-indexed children map; `fuel` bounds the
recursion depth (the JS call stack), decreasing by one at each nested
children call exactly as the stack grows in the source. -/

/-- The flatten recursion over an id-indexed children map `g`, with
`fuel` bounding the nesting depth.  `none`: the traversal could not
complete within that recursion depth. -/
def flattenG (g : Nat → List Nat) : Nat → List Nat → Option (List Nat)
  | 0, _ => none
  | _ + 1, [] => some []
  | fuel + 1, n :: ns => do
      let child ← if 0 < (g n).length then flattenG g fuel (g n) else some []
      let rest ← flattenG g (fuel + 1) ns
      pure (n :: child ++ rest)
termination_by fuel l => (fuel, l.length)

/-- The flatten recursion completes on worklist `l` at some recursion
depth. -/
def flattenTerminates (g : Nat → List Nat) (l : List Nat) : Prop :=
  ∃ fuel r, flattenG g fuel l = some r

/-- A malformed snapshot: post 0's children list contains post 1 and
vice versa (a post reachable from its own descendant). -/
def cycleGraph : Nat → List Nat :=
  fun n => if n = 0 then [1] else if n = 1 then [0] else []

theorem flattenG_cycle_none (fuel : Nat) :
    flattenG cycleGraph fuel [0] = none ∧ flattenG cycleGraph fuel [1] = none := by
  induction fuel with
  | zero => exact ⟨by simp [flattenG], by simp [flattenG]⟩
  | succ f ih =>
    constructor
    · simp only [flattenG]
      rw [show cycleGraph 0 = [1] from rfl]
      simp [ih.2]
    · simp only [flattenG]
      rw [show cycleGraph 1 = [0] from rfl]
      simp [ih.1]

mutual

/-- Fuel-bounded version of `flattenComments` on trees, used to state
that the recursion completes at a finite stack depth. -/
def flattenFuelC : Nat → List Comment → Option (List Comment)
  | 0, _ => none
  | _ + 1, [] => some []
  | fuel + 1, Comment.mk i u d cc :: cs => do
      let child ← flattenChildrenFuel fuel cc
      let rest ← flattenFuelC (fuel + 1) cs
      pure (Comment.mk i u d cc :: child ++ rest)
termination_by fuel l => (fuel, 0, l.length)

/-- Fuel-bounded version of the guarded children call. -/
def flattenChildrenFuel : Nat → Option (List Comment) → Option (List Comment)
  | _, none => some []
  | fuel, some l => if 0 < l.length then flattenFuelC fuel l else some []
termination_by fuel _cc => (fuel, 1, 0)

end

mutual

theorem flattenFuelC_mono : (fuel : Nat) → (l : List Comment) → (r : List Comment) →
    flattenFuelC fuel l = some r → flattenFuelC (fuel + 1) l = some r
  | 0, l, r => by
    intro h
    exact absurd h (by simp [flattenFuelC])
  | fuel + 1, [], r => by
    intro h
    simp only [flattenFuelC] at h ⊢
    exact h
  | fuel + 1, Comment.mk i u d cc :: cs, r => by
    intro h
    simp only [flattenFuelC] at h ⊢
    cases hch : flattenChildrenFuel fuel cc with
    | none =>
      rw [hch] at h
      simp at h
    | some child =>
      rw [hch] at h
      cases hrest : flattenFuelC (fuel + 1) cs with
      | none =>
        rw [hrest] at h
        simp at h
      | some rest =>
        rw [hrest] at h
        rw [flattenChildrenFuel_mono fuel cc child hch,
          flattenFuelC_mono (fuel + 1) cs rest hrest]
        exact h
termination_by fuel l => (fuel, 0, l.length)

theorem flattenChildrenFuel_mono : (fuel : Nat) → (cc : Option (List Comment)) →
    (r : List Comment) →
    flattenChildrenFuel fuel cc = some r → flattenChildrenFuel (fuel + 1) cc = some r
  | fuel, none, r => by
    intro h
    simp only [flattenChildrenFuel] at h ⊢
    exact h
  | fuel, some l, r => by
    intro h
    simp only [flattenChildrenFuel] at h ⊢
    split at h
    · rename_i hl
      rw [if_pos hl]
      exact flattenFuelC_mono fuel l r h
    · rename_i hl
      rw [if_neg hl]
      exact h
termination_by fuel _cc => (fuel, 1, 0)

end

theorem flattenFuelC_le {f g : Nat} (hfg : f ≤ g) (l : List Comment)
    (r : List Comment) (h : flattenFuelC f l = some r) : flattenFuelC g l = some r := by
  obtain ⟨k, rfl⟩ := Nat.exists_eq_add_of_le hfg
  induction k with
  | zero => exact h
  | succ k ih => exact flattenFuelC_mono (f + k) l r (ih (by omega))

theorem flattenChildrenFuel_le {f g : Nat} (hfg : f ≤ g) (cc : Option (List Comment))
    (r : List Comment) (h : flattenChildrenFuel f cc = some r) :
    flattenChildrenFuel g cc = some r := by
  obtain ⟨k, rfl⟩ := Nat.exists_eq_add_of_le hfg
  induction k with
  | zero => exact h
  | succ k ih => exact flattenChildrenFuel_mono (f + k) cc r (ih (by omega))

mutual

theorem flattenFuelC_complete : (l : List Comment) →
    ∃ fuel, flattenFuelC fuel l = some (flattenComments l)
  | [] => ⟨1, by simp [flattenFuelC, flattenComments]⟩
  | Comment.mk i u d cc :: cs => by
    obtain ⟨f1, h1⟩ := flattenChildrenFuel_complete cc
    obtain ⟨f2, h2⟩ := flattenFuelC_complete cs
    refine ⟨f1 + f2 + 1, ?_⟩
    have h1b : flattenChildrenFuel (f1 + f2) cc = some (flattenChildren cc) :=
      flattenChildrenFuel_le (by omega) cc _ h1
    have h2b : flattenFuelC (f1 + f2 + 1) cs = some (flattenComments cs) :=
      flattenFuelC_le (by omega) cs _ h2
    simp only [flattenFuelC, h1b, h2b, flattenComments]
    simp

theorem flattenChildrenFuel_complete : (cc : Option (List Comment)) →
    ∃ fuel, flattenChildrenFuel fuel cc = some (flattenChildren cc)
  | none => ⟨0, by simp [flattenChildrenFuel, flattenChildren]⟩
  | some l => by
    obtain ⟨f, h⟩ := flattenFuelC_complete l
    refine ⟨f, ?_⟩
    simp only [flattenChildrenFuel, flattenChildren]
    split
    · exact h
    · rfl

end

/-- C7 counterexample: on the two-node cyclic snapshot `cycleGraph`
(post 0 and post 1 each listing the other as a child), the flatten
recursion does not complete at any recursion depth — the code has no
depth cap and no revisit detection, so the traversal never terminates
normally (in JS it aborts only by exhausting the call stack) and no
malformed-tree condition is ever reported. -/
theorem flatten_cycle_no_termination : ¬ flattenTerminates cycleGraph [0] := by
  rintro ⟨fuel, r, h⟩
  rw [(flattenG_cycle_none fuel).1] at h
  exact Option.noConfusion h

/-- C7 (amended): the flatten traversal terminates on every finite
acyclic input tree (some finite recursion depth computes exactly the
structural flattening), but on a cyclic snapshot no recursion depth
suffices and no malformed-tree condition is reported: the defensive cap
or revisit detection claimed by the spec is absent from the code. -/
theorem flatten_termination_amended :
    (∀ l : List Comment, ∃ fuel, flattenFuelC fuel l = some (flattenComments l)) ∧
    ¬ ∃ fuel r, flattenG cycleGraph fuel [0] = some r := by
  refine ⟨flattenFuelC_complete, ?_⟩
  rintro ⟨fuel, r, h⟩
  rw [(flattenG_cycle_none fuel).1] at h
  exact Option.noConfusion h

/-! ### Vote toggle, idempotence, and missing children -/

/-- C8: from `NoVote`, casting `v` twice in a row returns the vote state
to `NoVote` (the second cast retracts the first), while casting the
opposite value on an existing vote replaces it. -/
theorem vote_toggle_correct (v : Int) (hv : v = 1 ∨ v = -1) :
    handleVoteToggle (handleVoteToggle none v) v = none ∧
    handleVoteToggle (some v) (-v) = some (-v) := by
  rcases hv with rfl | rfl <;> exact ⟨by decide, by decide⟩

theorem vote_toggle_correct_witness :
    ((1 : Int) = 1 ∨ (1 : Int) = -1) ∧
    (handleVoteToggle (handleVoteToggle none 1) 1 = none ∧
      handleVoteToggle (some 1) (-1) = some (-1)) :=
  ⟨Or.inl rfl, vote_toggle_correct 1 (Or.inl rfl)⟩

/-- C9: the pipeline is deterministic and idempotent on an unchanged
snapshot: two invocations on the same snapshot give the same list
(trivially, since the embedding is a pure function), and re-running the
rank and depth steps on the already-ranked output changes nothing. -/
theorem pipeline_idempotent (data : Comment) :
    fetchIdeaList data = fetchIdeaList data ∧
    sortIdeas (fetchIdeaList data) = fetchIdeaList data ∧
    ∀ i : Nat, getIndentLevel (sortIdeas (fetchIdeaList data)) i =
      getIndentLevel (fetchIdeaList data) i := by
  have hidem : sortIdeas (fetchIdeaList data) = fetchIdeaList data :=
    sortDesc_idem Comment.upvotes _
  exact ⟨rfl, hidem, fun i => by rw [hidem]⟩

/-- C10: when the fetched root's `comments` field is null or absent
(`data.comments || []` in the source), the pipeline still succeeds and
produces the one-element outline holding only the root, at depth 0. -/
theorem missing_children_single (i u d : Nat) :
    fetchIdeaList (Comment.mk i u d none) = [Comment.mk i u d none] ∧
    getIndentLevel (fetchIdeaList (Comment.mk i u d none)) 0 = 0 := by
  constructor
  · simp [fetchIdeaList, Comment.comments, flattenComments, sortIdeas, sortDesc,
      insertDesc]
  · rfl

end IdeaIndex
